import Mathlib

/-!
Verification development for the Argus multi-format content search engine
(Rust sources: src/search.rs, src/types.rs, src/index.rs, src/extractors.rs).

Modelling conventions (shallow embedding):
* Rust `&str` / `String` values are modelled as `List Char`; the byte view
  that Rust's string indexing and `str::find` operate on is obtained through
  an explicit UTF-8 encoder (`strBytes`), with bytes as `Nat` values < 256.
* Rust string slicing `&s[a..b]` panics when `a` or `b` is not a character
  boundary or lies outside the string; this is modelled by `strSlice`
  returning `Option`, and functions which can panic return `Option` results
  (`none` models a panic).
* `u64` / `usize` quantities are modelled as `Nat`; `f64` arithmetic is
  modelled as exact arithmetic (`ℚ` where only ordering matters, `ℝ` for the
  confidence formula which uses `ln`).
* Filesystem reads are modelled as explicit inputs: metadata lookups become
  functions `path → Option Metadata`, and the per-format extractors (which
  perform file/OCR I/O) become outcome parameters of the dispatcher.
-/

/-! ## Byte-level string model (UTF-8) -/

/-- UTF-8 encoding of a single scalar value, as in the Rust `char` encoder:
1 byte below U+0080, 2 bytes below U+0800, 3 bytes below U+10000, else 4. -/
def utf8EncodeChar (c : Char) : List Nat :=
  let v := c.toNat
  if v < 128 then [v]
  else if v < 2048 then [192 + v / 64, 128 + v % 64]
  else if v < 65536 then [224 + v / 4096, 128 + v / 64 % 64, 128 + v % 64]
  else [240 + v / 262144, 128 + v / 4096 % 64, 128 + v / 64 % 64, 128 + v % 64]

/-- The UTF-8 byte view of a string (Rust `str::as_bytes`). -/
def strBytes (s : List Char) : List Nat :=
  (s.map utf8EncodeChar).flatten

/-- Rust `str::len`: the length in bytes, not characters. -/
def byteLen (s : List Char) : Nat :=
  (strBytes s).length

/-- Models Rust `str::to_lowercase` character by character via the Unicode
simple lowercase mapping: ASCII `A`-`Z` map to `a`-`z`, and U+1E9E (LATIN
CAPITAL LETTER SHARP S, 3 bytes in UTF-8) maps to U+00DF (`ß`, 2 bytes);
characters without a simple mapping relevant to this development are left
unchanged. -/
def toLowerChar (c : Char) : Char :=
  if c.toNat ≥ 65 ∧ c.toNat ≤ 90 then Char.ofNat (c.toNat + 32)
  else if c.toNat = 7838 then Char.ofNat 223
  else c

/-- `String::to_lowercase` on the char list view. -/
def lowerStr (s : List Char) : List Char :=
  s.map toLowerChar

/-- Rust `str::is_char_boundary` on the byte view: index 0 and the length are
boundaries, an in-range index is a boundary iff the byte there is not a UTF-8
continuation byte (`0x80..0xBF`), and indices past the end are not. -/
def isCharBoundary (s : List Nat) (i : Nat) : Bool :=
  i == 0 || i == s.length ||
    (match s.get? i with
     | some b => !(128 ≤ b && b < 192)
     | none => false)

/-- Rust string slicing `&s[a..b]` on the byte view: defined exactly when
`a ≤ b ≤ len` and both ends are character boundaries; `none` models the
panic Rust raises otherwise. -/
def strSlice (s : List Nat) (a b : Nat) : Option (List Nat) :=
  if a ≤ b ∧ b ≤ s.length ∧ isCharBoundary s a = true ∧ isCharBoundary s b = true then
    some ((s.take b).drop a)
  else
    none

/-- Rust `str::find` for a literal pattern, on the byte view: the least byte
index at which the pattern's bytes occur, if any. -/
def findSub (s p : List Nat) : Option Nat :=
  if p.isPrefixOf s then some 0
  else
    match s with
    | [] => none
    | _ :: t => (findSub t p).map (· + 1)

/-- Rust `str::lines` on the char list view: split at `'\n'`, stripping one
trailing `'\r'` from a line that is terminated by `'\n'`; a final line
without a terminator is yielded as is, and the empty string has no lines. -/
def splitLines (s : List Char) : List (List Char) :=
  match h : s.dropWhile (fun c => c ≠ '\n') with
  | [] => if s.isEmpty then [] else [s]
  | _ :: rest =>
    let line := s.takeWhile (fun c => c ≠ '\n')
    let line' := if line.getLast? = some '\r' then line.dropLast else line
    line' :: splitLines rest
termination_by s.length
decreasing_by
  have h1 : (s.dropWhile (fun c => c ≠ '\n')).length ≤ s.length :=
    (List.dropWhile_suffix _).sublist.length_le
  rw [h] at h1
  simp only [List.length_cons] at h1
  omega

/-! ## Match engine (src/search.rs) -/

/-- `types.rs` `Match`: exactly two fields, the matched text and the full
source line as context, both recorded here in their byte view. -/
structure Match where
  matched_text : List Nat
  context : List Nat
deriving DecidableEq, Repr

/-- The scanning loop of `SearchEngine::find_literal_matches` for one line:
`search_line[start..].find(search_pattern)` locates a match at byte offset
`actual_pos = start + pos`, the matched text is sliced out of the *original*
line as `&line[actual_pos..actual_pos + pattern.len()]`, and the cursor
resumes at `actual_pos + 1` (one byte past the match start) until it reaches
the end of the search line.  `none` models a panic of either slicing
operation (out of range or off a character boundary).  The loop is driven by
an explicit fuel so that it is structurally recursive; the cursor strictly
increases and the loop stops at the end of the line, so the initial fuel
`search_line.len() + 1` used below can never be exhausted. -/
def litLoop (lineB searchB patB : List Nat) (patLen : Nat) :
    Nat → Nat → List Match → Option (List Match)
  | 0, _, _ => none
  | fuel + 1, start, acc =>
    if isCharBoundary searchB start = false then none
    else
      match findSub (searchB.drop start) patB with
      | none => some acc
      | some pos =>
        match strSlice lineB (start + pos) (start + pos + patLen) with
        | none => none
        | some mt =>
          if searchB.length ≤ start + pos + 1 then some (acc ++ [⟨mt, lineB⟩])
          else litLoop lineB searchB patB patLen fuel (start + pos + 1) (acc ++ [⟨mt, lineB⟩])

/-- `find_literal_matches`, restricted to a single line: the searched line is
lowercased unless the search is case sensitive, the pattern is used either
as given (case sensitive) or in its precomputed lowercase form, and
`pattern.len()` is the byte length of the *original* pattern. -/
def searchBytesOf (caseSensitive : Bool) (line : List Char) : List Nat :=
  if caseSensitive then strBytes line else strBytes (lowerStr line)

def patBytesOf (caseSensitive : Bool) (pat : List Char) : List Nat :=
  if caseSensitive then strBytes pat else strBytes (lowerStr pat)

def find_literal_line (caseSensitive : Bool) (line pat : List Char) :
    Option (List Match) :=
  litLoop (strBytes line) (searchBytesOf caseSensitive line)
    (patBytesOf caseSensitive pat) (byteLen pat)
    ((searchBytesOf caseSensitive line).length + 1) 0 []

/-- The per-line driver of `find_literal_matches`: each line of the text is
scanned independently and the matches are accumulated in order; a panic in
any line's scan (modelled by `none`) aborts the whole call. -/
def findLitLines (caseSensitive : Bool) (pat : List Char) :
    List (List Char) → Option (List Match)
  | [] => some []
  | line :: rest => do
    let ms ← find_literal_line caseSensitive line pat
    let rest' ← findLitLines caseSensitive pat rest
    pure (ms ++ rest')

/-- `SearchEngine::find_literal_matches`: split the text into lines and scan
each line. -/
def find_literal_matches (caseSensitive : Bool) (text pat : List Char) :
    Option (List Match) :=
  findLitLines caseSensitive pat (splitLines text)

/-- Specification-side helper: the set of *all* byte positions at which the
pattern occurs in the searched byte string, in increasing order, counting
overlapping occurrences.  (Not part of the source; used to state what the
scanning loop reports.) -/
def litOccurrences (s p : List Nat) : List Nat :=
  (List.range s.length).filter (fun i => p.isPrefixOf (s.drop i))

/-- Occurrences at positions `≥ start`. -/
def occFrom (s p : List Nat) (start : Nat) : List Nat :=
  (List.range' start (s.length - start)).filter (fun i => p.isPrefixOf (s.drop i))

/-- The match value the loop records for an occurrence at byte position `i`. -/
def matchAt (lineB : List Nat) (patLen i : Nat) : Match :=
  ⟨(lineB.take (i + patLen)).drop i, lineB⟩

/-! ## Data types and extraction dispatch (src/types.rs, src/extractors.rs) -/

/-- `types.rs` `FileType`: closed enum driving extractor dispatch. -/
inductive FileType where
  | Text
  | Code
  | Pdf
  | Docx
  | Image
  | Other
deriving DecidableEq, Repr

/-- `extractors.rs` `ExtractionResult`: extracted text (char list view),
success flag and optional error message. -/
structure ExtractionResult where
  text : List Char
  success : Bool
  error : Option String
deriving DecidableEq, Repr

/-- `ExtractionResult::success`. -/
def extractionSuccess (text : List Char) : ExtractionResult :=
  ⟨text, true, none⟩

/-- `ExtractionResult::failure`. -/
def extractionFailure (msg : String) : ExtractionResult :=
  ⟨[], false, some msg⟩

/-- `extractors.rs` `MAX_FILE_SIZE`: 50 MiB. -/
def MAX_FILE_SIZE : Nat := 50 * 1024 * 1024

/-- The size-exceeded message `extract_text` formats. -/
def fileTooLargeMsg (size : Nat) : String :=
  "File too large: " ++ toString size ++ " bytes (max: " ++
    toString MAX_FILE_SIZE ++ " bytes)"

/-- The outcomes of the four per-format extractors.  Each of them opens and
reads the file (and possibly runs OCR), which the embedding abstracts as the
outcome the corresponding call would produce; `extract_text` never consults
them on its fail-fast path. -/
structure ExtractorOutcomes where
  textFile : ExtractionResult
  pdf : ExtractionResult
  docx : ExtractionResult
  imageOcr : ExtractionResult

/-- `extractors.rs` `extract_text`: checks the file size first (when metadata
is available) and fails fast beyond `MAX_FILE_SIZE`, then dispatches on the
file type; images fail immediately when OCR is disabled. -/
def extract_text (metadataLen : Option Nat) (file_type : FileType)
    (ocr_enabled : Bool) (o : ExtractorOutcomes) : ExtractionResult :=
  let dispatch :=
    match file_type with
    | .Text | .Code | .Other => o.textFile
    | .Pdf => o.pdf
    | .Docx => o.docx
    | .Image =>
      if ocr_enabled then o.imageOcr
      else extractionFailure "OCR not enabled for images"
  match metadataLen with
  | some len => if len > MAX_FILE_SIZE then extractionFailure (fileTooLargeMsg len) else dispatch
  | none => dispatch

/-- Rust `str::trim` on the char list view (whitespace at both ends). -/
def trimLine (l : List Char) : List Char :=
  ((l.dropWhile Char.isWhitespace).reverse.dropWhile Char.isWhitespace).reverse

/-- The text-layer cleaning step of `extract_pdf`: per line, trim and drop
blank lines, then rejoin with `'\n'`. -/
def cleanPdfText (t : List Char) : List Char :=
  List.intercalate ['\n'] (((splitLines t).map trimLine).filter (fun l => ¬l.isEmpty))

/-- The cleaned text-layer output of `extract_pdf` as a function of the
`pdf_extract::extract_text` outcome (`none` models `Err(_)`). -/
def cleanedOf (textResult : Option (List Char)) : List Char :=
  match textResult with
  | some t => cleanPdfText t
  | none => []

/-- Whether `extract_pdf` reaches the OCR fallback (`extract_pdf_images_ocr`):
it does iff the cleaned text is not "substantial" (`cleaned.len() > 100`
bytes) and OCR is enabled. -/
def pdfOcrFallbackInvoked (textResult : Option (List Char)) (ocr_enabled : Bool) : Bool :=
  !(decide (byteLen (cleanedOf textResult) > 100)) && ocr_enabled

/-- `extractors.rs` `extract_pdf` (OCR-enabled build): clean the text layer;
if it is substantial (more than 100 bytes) or OCR is disabled, return it
(failing when empty); otherwise run the image-recovery OCR fallback, whose
outcome is the parameter `ocrResult`: combine non-empty OCR text with any
sparse cleaned text, fall back to the cleaned text alone, and fail only when
both are empty. -/
def extract_pdf (textResult : Option (List Char)) (ocr_enabled : Bool)
    (ocrResult : ExtractionResult) : ExtractionResult :=
  let cleaned := cleanedOf textResult
  let has_substantial_text := byteLen cleaned > 100
  if has_substantial_text ∨ ocr_enabled = false then
    if cleaned.isEmpty then extractionFailure "Failed to extract PDF text"
    else extractionSuccess cleaned
  else
    if ocrResult.success = true ∧ ¬ocrResult.text.isEmpty then
      if cleaned.isEmpty then ocrResult
      else extractionSuccess (cleaned ++ '\n' :: ocrResult.text)
    else
      if ¬cleaned.isEmpty then extractionSuccess cleaned
      else extractionFailure "PDF appears to be scanned but OCR could not extract text"

/-! ## Content cache (src/index.rs) -/

/-- `index.rs` `INDEX_VERSION`. -/
def INDEX_VERSION : Nat := 1

/-- `index.rs` `IndexEntry`. -/
structure IndexEntry where
  path : String
  file_type : FileType
  extracted_text : String
  modified_timestamp : Nat
  file_size : Nat
deriving DecidableEq, Repr

/-- `IndexEntry::is_stale`: the stored fingerprint disagrees with the live
`(modified, size)` pair. -/
def IndexEntry.is_stale (e : IndexEntry) (current_modified current_size : Nat) : Bool :=
  e.modified_timestamp != current_modified || e.file_size != current_size

/-- The file metadata `get_valid_entry` consults: the modification time (which
may itself be unavailable, in which case the code substitutes 0) and the size. -/
structure Metadata where
  modified : Option Nat
  size : Nat
deriving DecidableEq, Repr

/-- `index.rs` `Index` (the `HashMap` of entries modelled as an association
list keyed by path). -/
structure Index where
  version : Nat
  directory : String
  created_at : Nat
  updated_at : Nat
  entries : List (String × IndexEntry)
deriving DecidableEq, Repr

/-- `Index::get_valid_entry`: `None` when the path is absent from the map,
when the metadata stat fails, or when the entry is stale; otherwise the
stored entry itself.  `fsMeta` models `path.metadata()`. -/
def Index.get_valid_entry (idx : Index) (fsMeta : String → Option Metadata)
    (path : String) : Option IndexEntry :=
  match idx.entries.lookup path with
  | none => none
  | some entry =>
    match fsMeta path with
    | none => none
    | some md =>
      let current_modified := md.modified.getD 0
      let current_size := md.size
      if entry.is_stale current_modified current_size then none else some entry

/-- `index.rs` `IndexError`. -/
inductive IndexError where
  | NotFound
  | IoError (msg : String)
  | ParseError (msg : String)
  | VersionMismatch (expected found : Nat)
deriving DecidableEq, Repr

/-- `Index::load`: `pathExists` models `path.exists()`, and `openRead` models
`File::open` (outer `Except`) followed by `serde_json::from_reader` (inner
`Except`).  After a successful parse, the version must equal `INDEX_VERSION`
exactly, or the whole load is rejected; on success the parsed document is
returned unchanged. -/
def Index.load (pathExists : Bool) (openRead : Except String (Except String Index)) :
    Except IndexError Index :=
  if pathExists = false then Except.error IndexError.NotFound
  else
    match openRead with
    | Except.error e => Except.error (IndexError.IoError e)
    | Except.ok (Except.error e) => Except.error (IndexError.ParseError e)
    | Except.ok (Except.ok index) =>
      if index.version ≠ INDEX_VERSION then
        Except.error (IndexError.VersionMismatch INDEX_VERSION index.version)
      else
        Except.ok index

/-! ## Ranking (src/types.rs) -/

/-- `types.rs` `SearchResult`, restricted to the fields its `Ord` instance
reads: the list of matches (the primary key is its length) and the `f64`
confidence, modelled as an exact rational since only its ordering matters
here. -/
structure SearchResult where
  «matches» : List Match
  confidence : ℚ

/-- `usize::cmp` (total order on `Nat`). -/
def cmpNat (a b : Nat) : Ordering :=
  if a < b then Ordering.lt else if a = b then Ordering.eq else Ordering.gt

/-- `f64::partial_cmp` followed by `unwrap_or(Ordering::Equal)`, on the exact
model of the confidence values (which are never NaN, so `partial_cmp` always
succeeds). -/
def cmpQ (a b : ℚ) : Ordering :=
  if a < b then Ordering.lt else if a = b then Ordering.eq else Ordering.gt

/-- `impl Ord for SearchResult`: match count descending, then confidence
descending (note the swapped receiver: `other.matches.len().cmp(&self...)`). -/
def SearchResult.cmp (a b : SearchResult) : Ordering :=
  match cmpNat b.matches.length a.matches.length with
  | Ordering.eq => cmpQ b.confidence a.confidence
  | o => o

/-- The "ranks no later than" relation induced by `Ord` under `Vec::sort`:
`a` sorts no later than `b` iff `cmp a b ≠ Greater`. -/
def SearchResult.le (a b : SearchResult) : Prop :=
  a.cmp b ≠ Ordering.gt

/-! ## Confidence formula (src/types.rs, `calculate_confidence`) -/

/-- `SearchResult::calculate_confidence`, with `f64` arithmetic modelled as
exact real arithmetic and `ln` as `Real.log`: a logarithmic match score
capped at 5, a density bonus capped at 10 (or 0.5 for an empty file), the
weighted sum `0.7 * matchScore + 0.3 * density`, clamped to `[0, 1]`
(`f64::clamp` is `max` then `min`). -/
noncomputable def calculate_confidence (matchCount fileSize : Nat) : ℝ :=
  if matchCount = 0 then 0
  else
    let match_count : ℝ := matchCount
    let match_score := min (Real.log match_count + 1) 5 / 5
    let size_kb := (fileSize : ℝ) / 1024
    let density := if size_kb > 0 then min (match_count / size_kb) 10 / 10 else 0.5
    let score := match_score * 0.7 + density * 0.3
    min (max score 0) 1

/-- The confidence formula exactly as the specification states it (spec
§4.6), for comparison with the source's `calculate_confidence`. -/
noncomputable def specConfidence (matchCount fileSize : Nat) : ℝ :=
  let matchScore := min (Real.log matchCount + 1) 5 / 5
  let density : ℝ :=
    if fileSize > 0 then min ((matchCount : ℝ) / ((fileSize : ℝ) / 1024)) 10 / 10 else 0.5
  min (max (0.7 * matchScore + 0.3 * density) 0) 1

/-! ## Helper lemmas: ASCII byte strings -/

/-- A string all of whose characters are single-byte (ASCII) in UTF-8. -/
def allAscii (s : List Char) : Prop :=
  ∀ c ∈ s, c.toNat < 128

instance decAllAscii (s : List Char) : Decidable (allAscii s) :=
  inferInstanceAs (Decidable (∀ c ∈ s, c.toNat < 128))

lemma charOfNatToNat (n : Nat) (h : n < 55296) : (Char.ofNat n).toNat = n := by
  have hv : n.isValidChar := Or.inl h
  unfold Char.ofNat
  rw [dif_pos hv]
  unfold Char.ofNatAux Char.toNat
  simp [UInt32.toNat, UInt32.ofNat', BitVec.toNat_ofNat]

lemma utf8EncodeChar_ascii (c : Char) (h : c.toNat < 128) :
    utf8EncodeChar c = [c.toNat] := by
  unfold utf8EncodeChar
  simp [h]

lemma strBytes_nil : strBytes [] = [] := rfl

lemma strBytes_cons (c : Char) (s : List Char) :
    strBytes (c :: s) = utf8EncodeChar c ++ strBytes s := by
  simp [strBytes]

lemma strBytes_append (s t : List Char) :
    strBytes (s ++ t) = strBytes s ++ strBytes t := by
  simp [strBytes]

lemma strBytes_ascii (s : List Char) (h : allAscii s) :
    strBytes s = s.map Char.toNat := by
  induction s with
  | nil => rfl
  | cons c t ih =>
    rw [strBytes_cons, utf8EncodeChar_ascii c (h c (List.mem_cons_self c t)),
      ih (fun x hx => h x (List.mem_cons_of_mem c hx))]
    rfl

lemma strBytes_ascii_length (s : List Char) (h : allAscii s) :
    (strBytes s).length = s.length := by
  rw [strBytes_ascii s h, List.length_map]

lemma strBytes_ascii_lt (s : List Char) (h : allAscii s) :
    ∀ b ∈ strBytes s, b < 128 := by
  rw [strBytes_ascii s h]
  intro b hb
  rcases List.mem_map.mp hb with ⟨c, hc, rfl⟩
  exact h c hc

lemma toLowerChar_ascii (c : Char) (h : c.toNat < 128) :
    (toLowerChar c).toNat < 128 := by
  unfold toLowerChar
  by_cases h1 : c.toNat ≥ 65 ∧ c.toNat ≤ 90
  · rw [if_pos h1, charOfNatToNat _ (by omega)]
    omega
  · rw [if_neg h1, if_neg (by omega)]
    exact h

lemma lowerStr_ascii (s : List Char) (h : allAscii s) : allAscii (lowerStr s) := by
  intro c hc
  rcases List.mem_map.mp hc with ⟨d, hd, rfl⟩
  exact toLowerChar_ascii d (h d hd)

lemma lowerStr_length (s : List Char) : (lowerStr s).length = s.length := by
  simp [lowerStr]

/-- Every in-range index of an all-ASCII byte string is a character boundary. -/
lemma isCharBoundary_ascii (s : List Nat) (h : ∀ b ∈ s, b < 128) (i : Nat)
    (hi : i ≤ s.length) : isCharBoundary s i = true := by
  unfold isCharBoundary
  rcases Nat.lt_or_ge i s.length with hlt | hge
  · cases hget : s.get? i with
    | none =>
      have := List.get?_eq_none.mp hget
      omega
    | some b =>
      have hbmem : b ∈ s := List.get?_mem hget
      have hb := h b hbmem
      simp
      omega
  · have : i = s.length := le_antisymm hi hge
    simp [this]

lemma strSlice_ascii (s : List Nat) (h : ∀ b ∈ s, b < 128) (a b : Nat)
    (hab : a ≤ b) (hb : b ≤ s.length) :
    strSlice s a b = some ((s.take b).drop a) := by
  unfold strSlice
  rw [if_pos]
  exact ⟨hab, hb, isCharBoundary_ascii s h a (le_trans hab hb), isCharBoundary_ascii s h b hb⟩

/-! ## Helper lemmas: findSub and occurrence positions -/

lemma findSub_none (s p : List Nat) (h : findSub s p = none) :
    ∀ i, p.isPrefixOf (s.drop i) = false := by
  induction s with
  | nil =>
    intro i
    rw [List.drop_nil]
    unfold findSub at h
    by_cases hp : p.isPrefixOf [] = true
    · rw [if_pos hp] at h
      exact absurd h (by simp)
    · exact Bool.eq_false_iff.mpr hp
  | cons b t ih =>
    intro i
    unfold findSub at h
    by_cases hp : p.isPrefixOf (b :: t) = true
    · rw [if_pos hp] at h
      exact absurd h (by simp)
    · rw [if_neg hp] at h
      simp only [Option.map_eq_none'] at h
      cases i with
      | zero => exact Bool.eq_false_iff.mpr hp
      | succ j => exact ih h j

lemma findSub_some (s p : List Nat) (pos : Nat) (h : findSub s p = some pos) :
    p.isPrefixOf (s.drop pos) = true ∧ ∀ j < pos, p.isPrefixOf (s.drop j) = false := by
  induction s generalizing pos with
  | nil =>
    unfold findSub at h
    by_cases hp : p.isPrefixOf [] = true
    · rw [if_pos hp] at h
      simp only [Option.some.injEq] at h
      subst h
      exact ⟨hp, by omega⟩
    · rw [if_neg hp] at h
      exact absurd h (by simp)
  | cons b t ih =>
    unfold findSub at h
    by_cases hp : p.isPrefixOf (b :: t) = true
    · rw [if_pos hp] at h
      simp only [Option.some.injEq] at h
      subst h
      exact ⟨hp, by omega⟩
    · rw [if_neg hp] at h
      simp only [Option.map_eq_some'] at h
      rcases h with ⟨q, hq, rfl⟩
      rcases ih q hq with ⟨h1, h2⟩
      refine ⟨by simpa using h1, ?_⟩
      intro j hj
      cases j with
      | zero => exact Bool.eq_false_iff.mpr hp
      | succ k =>
        have : k < q := by omega
        simpa using h2 k this

lemma isPrefixOfTrueIff {l₁ l₂ : List Nat} : l₁.isPrefixOf l₂ = true ↔ l₁ <+: l₂ :=
  List.isPrefixOf_iff_prefix

lemma occFrom_of_ge (s p : List Nat) (start : Nat) (h : s.length ≤ start) :
    occFrom s p start = [] := by
  unfold occFrom
  have h0 : s.length - start = 0 := by omega
  rw [h0]
  rfl

lemma occFrom_nil (s p : List Nat) (start : Nat)
    (h : findSub (s.drop start) p = none) : occFrom s p start = [] := by
  unfold occFrom
  rw [List.filter_eq_nil_iff]
  intro i hi
  rw [List.mem_range'_1] at hi
  have hf := findSub_none _ _ h (i - start)
  rw [List.drop_drop] at hf
  have heq : start + (i - start) = i := by omega
  rw [heq] at hf
  simp [hf]

lemma occFrom_cons (s p : List Nat) (start pos : Nat) (hp : p ≠ [])
    (h : findSub (s.drop start) p = some pos) :
    start + pos < s.length ∧
      occFrom s p start = (start + pos) :: occFrom s p (start + pos + 1) := by
  rcases findSub_some _ _ _ h with ⟨hpre, hmin⟩
  rw [List.drop_drop] at hpre
  have hlt : start + pos < s.length := by
    by_contra hge
    push_neg at hge
    rw [List.drop_eq_nil_of_le hge] at hpre
    cases p with
    | nil => exact hp rfl
    | cons a q => simp at hpre
  refine ⟨hlt, ?_⟩
  have hsplit : List.range' start (s.length - start) =
      List.range' start pos ++ List.range' (start + pos) (s.length - start - pos) := by
    have happ := List.range'_append start pos (s.length - start - pos) 1
    simp only [one_mul] at happ
    rw [happ]
    congr 1
    omega
  have hsucc : List.range' (start + pos) (s.length - start - pos) =
      (start + pos) :: List.range' (start + pos + 1) (s.length - (start + pos + 1)) := by
    have h1 : s.length - start - pos = (s.length - (start + pos + 1)) + 1 := by omega
    rw [h1, List.range'_succ]
  unfold occFrom
  rw [hsplit, List.filter_append, hsucc]
  have hfilter1 : (List.range' start pos).filter (fun i => p.isPrefixOf (s.drop i)) = [] := by
    rw [List.filter_eq_nil_iff]
    intro i hi
    rw [List.mem_range'_1] at hi
    have hf := hmin (i - start) (by omega)
    rw [List.drop_drop] at hf
    have heq : start + (i - start) = i := by omega
    rw [heq] at hf
    simp [hf]
  rw [hfilter1, List.nil_append, List.filter_cons, if_pos hpre]

lemma litLoop_ascii (lineB searchB patB : List Nat) (patLen : Nat)
    (hline : ∀ b ∈ lineB, b < 128) (hsearch : ∀ b ∈ searchB, b < 128)
    (hlen : lineB.length = searchB.length) (hplen : patLen = patB.length)
    (hp : patB ≠ []) :
    ∀ (fuel start : Nat) (acc : List Match), searchB.length - start < fuel →
      start ≤ searchB.length →
      litLoop lineB searchB patB patLen fuel start acc =
        some (acc ++ (occFrom searchB patB start).map (matchAt lineB patLen)) := by
  intro fuel
  induction fuel with
  | zero =>
    intro start acc hk hstart
    omega
  | succ k ih =>
    intro start acc hk hstart
    cases hfind : findSub (searchB.drop start) patB with
    | none =>
      rw [litLoop]
      simp only [isCharBoundary_ascii searchB hsearch start hstart, Bool.true_eq_false,
        if_false, hfind]
      rw [occFrom_nil _ _ _ hfind]
      simp
    | some pos =>
      rcases occFrom_cons searchB patB start pos hp hfind with ⟨hlt, hocc⟩
      have hpre := (findSub_some _ _ _ hfind).1
      rw [List.drop_drop] at hpre
      have hple : patB.length ≤ (searchB.drop (start + pos)).length :=
        List.IsPrefix.length_le (isPrefixOfTrueIff.mp hpre)
      rw [List.length_drop] at hple
      have hbound : start + pos + patLen ≤ lineB.length := by omega
      have hslice :=
        strSlice_ascii lineB hline (start + pos) (start + pos + patLen) (by omega) hbound
      rw [litLoop]
      simp only [isCharBoundary_ascii searchB hsearch start hstart, Bool.true_eq_false,
        if_false, hfind, hslice]
      by_cases hend : searchB.length ≤ start + pos + 1
      · rw [if_pos hend, hocc]
        rw [occFrom_of_ge _ _ _ hend]
        simp [matchAt]
      · rw [if_neg hend]
        rw [ih (start + pos + 1) _ (by omega) (by omega)]
        rw [hocc]
        simp [matchAt]

lemma litOccurrences_eq_occFrom (s p : List Nat) :
    litOccurrences s p = occFrom s p 0 := by
  unfold litOccurrences occFrom
  rw [List.range_eq_range']
  norm_num

lemma ne_nil_of_ascii_bytes (pat : List Char) (hpa : allAscii pat) (hp : pat ≠ []) :
    strBytes pat ≠ [] := by
  intro hcon
  have := strBytes_ascii_length pat hpa
  rw [hcon] at this
  simp only [List.length_nil] at this
  exact hp (List.length_eq_zero.mp this.symm)

lemma searchBytesOf_lt (cs : Bool) (line : List Char) (hl : allAscii line) :
    ∀ b ∈ searchBytesOf cs line, b < 128 := by
  unfold searchBytesOf
  cases cs with
  | true => simpa using strBytes_ascii_lt line hl
  | false => simpa using strBytes_ascii_lt (lowerStr line) (lowerStr_ascii line hl)

lemma searchBytesOf_length (cs : Bool) (line : List Char) (hl : allAscii line) :
    (searchBytesOf cs line).length = line.length := by
  unfold searchBytesOf
  cases cs with
  | true => simpa using strBytes_ascii_length line hl
  | false =>
    simpa using
      (strBytes_ascii_length (lowerStr line) (lowerStr_ascii line hl)).trans
        (lowerStr_length line)

lemma patBytesOf_length (cs : Bool) (pat : List Char) (hpa : allAscii pat) :
    (patBytesOf cs pat).length = pat.length := by
  unfold patBytesOf
  cases cs with
  | true => simpa using strBytes_ascii_length pat hpa
  | false =>
    simpa using
      (strBytes_ascii_length (lowerStr pat) (lowerStr_ascii pat hpa)).trans
        (lowerStr_length pat)

lemma patBytesOf_ne_nil (cs : Bool) (pat : List Char) (hpa : allAscii pat)
    (hp : pat ≠ []) : patBytesOf cs pat ≠ [] := by
  intro hcon
  have := patBytesOf_length cs pat hpa
  rw [hcon] at this
  simp only [List.length_nil] at this
  exact hp (List.length_eq_zero.mp this.symm)

/-- On all-ASCII input the scanning loop completes without panicking and
reports exactly one match per occurrence position (overlapping occurrences
included), each sliced out of the original line. -/
lemma find_literal_line_ascii (cs : Bool) (line pat : List Char)
    (hl : allAscii line) (hpa : allAscii pat) (hp : pat ≠ []) :
    find_literal_line cs line pat =
      some ((litOccurrences (searchBytesOf cs line) (patBytesOf cs pat)).map
        (matchAt (strBytes line) (byteLen pat))) := by
  unfold find_literal_line
  have hlen : (strBytes line).length = (searchBytesOf cs line).length := by
    rw [strBytes_ascii_length line hl, searchBytesOf_length cs line hl]
  have hplen : byteLen pat = (patBytesOf cs pat).length := by
    unfold byteLen
    rw [strBytes_ascii_length pat hpa, patBytesOf_length cs pat hpa]
  rw [litLoop_ascii (strBytes line) (searchBytesOf cs line) (patBytesOf cs pat)
    (byteLen pat) (strBytes_ascii_lt line hl) (searchBytesOf_lt cs line hl)
    hlen hplen (patBytesOf_ne_nil cs pat hpa hp)
    ((searchBytesOf cs line).length + 1) 0 [] (by omega) (by omega)]
  rw [litOccurrences_eq_occFrom]
  simp

/-- On all-ASCII input the whole per-line driver completes and the number of
matches is the total number of occurrences over all lines. -/
lemma findLitLines_ascii (cs : Bool) (pat : List Char) (hpa : allAscii pat)
    (hp : pat ≠ []) :
    ∀ lines : List (List Char), (∀ l ∈ lines, allAscii l) →
      ∃ ms, findLitLines cs pat lines = some ms ∧
        ms.length = (lines.map (fun l =>
          (litOccurrences (searchBytesOf cs l) (patBytesOf cs pat)).length)).sum := by
  intro lines
  induction lines with
  | nil =>
    intro _
    exact ⟨[], rfl, by simp⟩
  | cons l rest ih =>
    intro hall
    rcases ih (fun x hx => hall x (List.mem_cons_of_mem _ hx)) with ⟨ms, hms, hmslen⟩
    have h1 := find_literal_line_ascii cs l pat (hall l (List.mem_cons_self _ _)) hpa hp
    refine ⟨(litOccurrences (searchBytesOf cs l) (patBytesOf cs pat)).map
      (matchAt (strBytes l) (byteLen pat)) ++ ms, ?_, ?_⟩
    · simp only [findLitLines, h1, hms, Option.bind_eq_bind, Option.some_bind]
      rfl
    · simp [hmslen]

/-! ## Helper lemmas: occurrences across line splitting -/

lemma dropWhile_cons_head {α : Type} (p : α → Bool) (l : List α) (d : α)
    (rest : List α) (h : l.dropWhile p = d :: rest) : p d = false := by
  induction l with
  | nil => simp at h
  | cons x t ih =>
    rw [List.dropWhile_cons] at h
    by_cases hx : p x = true
    · rw [if_pos hx] at h
      exact ih h
    · rw [if_neg hx] at h
      injection h with h1 h2
      subst h1
      exact Bool.eq_false_iff.mpr hx

lemma splitLines_nil_case (s : List Char)
    (h : s.dropWhile (fun c => c ≠ '\n') = []) :
    splitLines s = if s.isEmpty then [] else [s] := by
  rw [splitLines]
  split
  · rfl
  next d rest heq =>
    rw [h] at heq
    simp at heq

lemma splitLines_cons_case (s : List Char) (d : Char) (rest : List Char)
    (h : s.dropWhile (fun c => c ≠ '\n') = d :: rest) :
    splitLines s =
      (if (s.takeWhile (fun c => c ≠ '\n')).getLast? = some '\r' then
        (s.takeWhile (fun c => c ≠ '\n')).dropLast
      else s.takeWhile (fun c => c ≠ '\n')) :: splitLines rest := by
  rw [splitLines]
  split
  next heq =>
    rw [h] at heq
    simp at heq
  next d' rest' heq =>
    rw [h] at heq
    injection heq with h1 h2
    subst h2
    rfl

lemma preOfNotMem {α : Type} (p : List α) :
    ∀ (xs : List α) (ys : List α) (c : α), p <+: xs ++ c :: ys → c ∉ p → p <+: xs := by
  induction p with
  | nil =>
    intro xs ys c _ _
    exact List.nil_prefix
  | cons a q ih =>
    intro xs ys c h hc
    cases xs with
    | nil =>
      rcases List.cons_prefix_cons.mp h with ⟨rfl, _⟩
      exact absurd (List.mem_cons_self a q) hc
    | cons x xs' =>
      rw [List.cons_append] at h
      rcases List.cons_prefix_cons.mp h with ⟨rfl, hq⟩
      have hq' := ih xs' ys c hq (fun hm => hc (List.mem_cons_of_mem a hm))
      exact List.cons_prefix_cons.mpr ⟨rfl, hq'⟩

lemma infixSplit {α : Type} (p : List α) (c : α) (hc : c ∉ p) :
    ∀ (xs ys : List α), p <:+: xs ++ c :: ys → p <:+: xs ∨ p <:+: ys := by
  intro xs
  induction xs with
  | nil =>
    intro ys h
    rw [List.nil_append] at h
    rcases List.infix_cons_iff.mp h with h1 | h2
    · left
      cases p with
      | nil => exact List.nil_infix
      | cons a q =>
        rcases List.cons_prefix_cons.mp h1 with ⟨rfl, _⟩
        exact absurd (List.mem_cons_self a q) hc
    · right
      exact h2
  | cons x xs' ih =>
    intro ys h
    rw [List.cons_append] at h
    rcases List.infix_cons_iff.mp h with h1 | h2
    · left
      have := preOfNotMem p (x :: xs') ys c (by simpa using h1) hc
      exact this.isInfix
    · rcases ih ys h2 with ha | hb
      · left
        exact List.infix_cons ha
      · right
        exact hb

lemma infixDropLast {α : Type} (p l : List α) (c : α) (h : p <:+: l) (hc : c ∉ p)
    (hl : l.getLast? = some c) : p <:+: l.dropLast := by
  have hdl : l.dropLast ++ [c] = l := List.dropLast_append_getLast? c hl
  rw [← hdl] at h
  rcases infixSplit p c hc l.dropLast [] h with h1 | h2
  · exact h1
  · have : p = [] := List.sublist_nil.mp h2.sublist
    subst this
    exact List.nil_infix

/-- A pattern containing no line-break characters that occurs in the text
occurs within one of its lines. -/
lemma splitLines_infix (pat : List Char) (hn : ('\n' : Char) ∉ pat)
    (hr : ('\r' : Char) ∉ pat) (hp : pat ≠ []) :
    ∀ s : List Char, pat <:+: s → ∃ l ∈ splitLines s, pat <:+: l := by
  intro s
  induction s using splitLines.induct with
  | case1 s hdrop hemp =>
    intro hin
    rw [List.isEmpty_iff] at hemp
    subst hemp
    exact absurd (List.sublist_nil.mp hin.sublist) hp
  | case2 s hdrop hemp =>
    intro hin
    rw [splitLines_nil_case s hdrop]
    simp only [hemp, if_false]
    exact ⟨s, List.mem_singleton.mpr rfl, hin⟩
  | case3 s d rest hdrop ih =>
    intro hin
    have hsplit : s = s.takeWhile (fun c => c ≠ '\n') ++ d :: rest := by
      rw [← hdrop]
      exact (List.takeWhile_append_dropWhile _ _).symm
    have hd : d = '\n' := by
      have := dropWhile_cons_head (fun c => decide (c ≠ '\n')) s d rest hdrop
      simpa using this
    subst hd
    rw [hsplit] at hin
    rw [splitLines_cons_case s '\n' rest hdrop]
    rcases infixSplit pat '\n' hn _ _ hin with h1 | h2
    · by_cases hlast : (s.takeWhile (fun c => c ≠ '\n')).getLast? = some '\r'
      · rw [if_pos hlast]
        exact ⟨_, List.mem_cons_self _ _, infixDropLast pat _ '\r' h1 hr hlast⟩
      · rw [if_neg hlast]
        exact ⟨_, List.mem_cons_self _ _, h1⟩
    · rcases ih h2 with ⟨l, hl, hinl⟩
      exact ⟨l, List.mem_cons_of_mem _ hl, hinl⟩

/-- Every line produced by `splitLines` is a sublist of the original text. -/
lemma splitLines_sublist :
    ∀ s : List Char, ∀ l ∈ splitLines s, l.Sublist s := by
  intro s
  induction s using splitLines.induct with
  | case1 s hdrop hemp =>
    intro l hl
    rw [splitLines_nil_case s hdrop] at hl
    simp [hemp] at hl
  | case2 s hdrop hemp =>
    intro l hl
    rw [splitLines_nil_case s hdrop] at hl
    simp [hemp] at hl
    subst hl
    exact List.Sublist.refl _
  | case3 s d rest hdrop ih =>
    intro l hl
    rw [splitLines_cons_case s d rest hdrop] at hl
    have hsub0 : (s.takeWhile (fun c => c ≠ '\n')).Sublist s :=
      (List.takeWhile_prefix _).sublist
    have hrest : rest.Sublist s := by
      have h1 : (s.dropWhile (fun c => c ≠ '\n')).Sublist s :=
        (List.dropWhile_suffix _).sublist
      rw [hdrop] at h1
      exact (List.sublist_cons_self d rest).trans h1
    rcases List.mem_cons.mp hl with rfl | htail
    · by_cases hlast : (s.takeWhile (fun c => c ≠ '\n')).getLast? = some '\r'
      · rw [if_pos hlast]
        exact (List.dropLast_sublist _).trans hsub0
      · rw [if_neg hlast]
        exact hsub0
    · exact (ih l htail).trans hrest

lemma strBytes_isInfix (p l : List Char) (h : p <:+: l) :
    strBytes p <:+: strBytes l := by
  rcases h with ⟨u, v, rfl⟩
  exact ⟨strBytes u, strBytes v, by rw [← strBytes_append, ← strBytes_append]⟩

lemma searchBytesOf_isInfix (cs : Bool) (p l : List Char) (h : p <:+: l) :
    patBytesOf cs p <:+: searchBytesOf cs l := by
  unfold patBytesOf searchBytesOf
  cases cs with
  | true => simpa using strBytes_isInfix p l h
  | false => simpa using strBytes_isInfix (lowerStr p) (lowerStr l) (List.IsInfix.map toLowerChar h)

/-- An actual occurrence guarantees a nonempty occurrence list. -/
lemma litOccurrences_ne_nil (s p : List Nat) (hp : p ≠ []) (h : p <:+: s) :
    litOccurrences s p ≠ [] := by
  rcases h with ⟨u, v, huv⟩
  have hmem : u.length ∈ litOccurrences s p := by
    unfold litOccurrences
    rw [List.mem_filter, List.mem_range]
    constructor
    · rw [← huv]
      rcases p with _ | ⟨a, q⟩
      · exact absurd rfl hp
      · simp only [List.length_append, List.length_cons]
        omega
    · rw [← huv, List.append_assoc, List.drop_left]
      exact isPrefixOfTrueIff.mpr (List.prefix_append p v)
  exact List.ne_nil_of_mem hmem

/-! ## Helper lemmas: every match's context is its source line -/

lemma litLoop_context (lineB searchB patB : List Nat) (patLen : Nat) :
    ∀ (fuel start : Nat) (acc ms : List Match),
      litLoop lineB searchB patB patLen fuel start acc = some ms →
      ∀ m ∈ ms, m ∈ acc ∨ m.context = lineB := by
  intro fuel
  induction fuel with
  | zero =>
    intro start acc ms hsome m hm
    exact absurd hsome (by simp [litLoop])
  | succ k ih =>
    intro start acc ms hsome m hm
    rw [litLoop] at hsome
    split at hsome
    · exact absurd hsome (by simp)
    · split at hsome
      · injection hsome with h1
        subst h1
        exact Or.inl hm
      · split at hsome
        · exact absurd hsome (by simp)
        · split at hsome
          · injection hsome with h1
            subst h1
            rcases List.mem_append.mp hm with h2 | h2
            · exact Or.inl h2
            · right
              rw [List.mem_singleton.mp h2]
          · have := ih _ _ ms hsome m hm
            rcases this with h2 | h2
            · rcases List.mem_append.mp h2 with h3 | h3
              · exact Or.inl h3
              · right
                rw [List.mem_singleton.mp h3]
            · exact Or.inr h2

lemma find_literal_line_context (cs : Bool) (line pat : List Char)
    (ms : List Match) (h : find_literal_line cs line pat = some ms) :
    ∀ m ∈ ms, m.context = strBytes line := by
  intro m hm
  unfold find_literal_line at h
  have := litLoop_context (strBytes line) (searchBytesOf cs line) (patBytesOf cs pat)
    (byteLen pat) ((searchBytesOf cs line).length + 1) 0 [] ms h m hm
  rcases this with h1 | h1
  · exact absurd h1 (List.not_mem_nil m)
  · exact h1

lemma findLitLines_context (cs : Bool) (pat : List Char) :
    ∀ (lines : List (List Char)) (ms : List Match),
      findLitLines cs pat lines = some ms →
      ∀ m ∈ ms, ∃ l ∈ lines, m.context = strBytes l := by
  intro lines
  induction lines with
  | nil =>
    intro ms h m hm
    injection h with h1
    subst h1
    exact absurd hm (List.not_mem_nil m)
  | cons l rest ih =>
    intro ms h m hm
    simp only [findLitLines, Option.bind_eq_bind] at h
    cases h1 : find_literal_line cs l pat with
    | none =>
      rw [h1] at h
      exact absurd h (by simp)
    | some ms1 =>
      rw [h1] at h
      cases h2 : findLitLines cs pat rest with
      | none =>
        rw [h2] at h
        exact absurd h (by simp)
      | some ms2 =>
        rw [h2] at h
        simp only [Option.some_bind, Option.pure_def, Option.some.injEq] at h
        subst h
        rcases List.mem_append.mp hm with h3 | h3
        · exact ⟨l, List.mem_cons_self _ _, find_literal_line_context cs l pat ms1 h1 m h3⟩
        · rcases ih ms2 h2 m h3 with ⟨l', hl', hctx⟩
          exact ⟨l', List.mem_cons_of_mem _ hl', hctx⟩

/-! ## Claim theorems -/

/-- Claim C1: for every cache entry fingerprinted at modification time `t` and
size `s`, `get_valid_entry` returns `none` when the backing file's current
modification time or current size differs from `(t, s)` or when the path is
absent from the entries map, and returns `some` of the stored entry (its text
unchanged) when both current modification time and current size equal
`(t, s)`. -/
theorem C1_get_valid_entry_fingerprint (idx : Index)
    (fsMeta : String → Option Metadata) (path : String) :
    (idx.entries.lookup path = none → idx.get_valid_entry fsMeta path = none) ∧
    (∀ e : IndexEntry, idx.entries.lookup path = some e →
      ∀ t s : Nat, fsMeta path = some (Metadata.mk (some t) s) →
        ((t ≠ e.modified_timestamp ∨ s ≠ e.file_size) →
          idx.get_valid_entry fsMeta path = none) ∧
        (t = e.modified_timestamp → s = e.file_size →
          idx.get_valid_entry fsMeta path = some e)) := by
  constructor
  · intro h
    unfold Index.get_valid_entry
    rw [h]
  · intro e he t s hfs
    constructor
    · intro hne
      have hstale : e.is_stale t s = true := by
        unfold IndexEntry.is_stale
        simp only [Bool.or_eq_true, bne_iff_ne]
        rcases hne with h1 | h1
        · exact Or.inl (Ne.symm h1)
        · exact Or.inr (Ne.symm h1)
      unfold Index.get_valid_entry
      simp only [he, hfs, Option.getD_some]
      simp [hstale]
    · intro ht hs
      have hstale : e.is_stale t s = false := by
        unfold IndexEntry.is_stale
        simp only [Bool.or_eq_false_iff, bne_eq_false_iff_eq]
        exact ⟨ht.symm, hs.symm⟩
      unfold Index.get_valid_entry
      simp only [he, hfs, Option.getD_some]
      simp [hstale]

theorem C1_witness :
    (Index.mk 1 "d" 0 0
        [("a.txt", IndexEntry.mk "a.txt" FileType.Text "hello" 10 5)]).get_valid_entry
      (fun _ => some (Metadata.mk (some 10) 5)) "a.txt" =
      some (IndexEntry.mk "a.txt" FileType.Text "hello" 10 5) :=
  ((C1_get_valid_entry_fingerprint _ _ _).2 _ (by rfl) 10 5 (by rfl)).2 (by rfl) (by rfl)

/-- Claim C8: for every stored cache document whose `version` differs from the
program's `INDEX_VERSION`, `load` rejects the whole cache with a
version-mismatch error; a successful load requires the stored version to
equal `INDEX_VERSION` exactly and returns the parsed document unchanged
(no partial or migrated load). -/
theorem C8_load_version_gate (pathExists : Bool)
    (openRead : Except String (Except String Index)) :
    (∀ idx : Index, Index.load pathExists openRead = Except.ok idx →
      idx.version = INDEX_VERSION ∧ openRead = Except.ok (Except.ok idx)) ∧
    (∀ idx : Index, openRead = Except.ok (Except.ok idx) → pathExists = true →
      idx.version ≠ INDEX_VERSION →
      Index.load pathExists openRead =
        Except.error (IndexError.VersionMismatch INDEX_VERSION idx.version)) := by
  constructor
  · intro idx h
    unfold Index.load at h
    by_cases hpe : pathExists = false
    · rw [if_pos hpe] at h
      exact absurd h (by simp)
    · rw [if_neg hpe] at h
      cases openRead with
      | error e => exact absurd h (by simp)
      | ok inner =>
        cases inner with
        | error e => exact absurd h (by simp)
        | ok idx' =>
          dsimp only at h
          by_cases hv : idx'.version ≠ INDEX_VERSION
          · rw [if_pos hv] at h
            exact absurd h (by simp)
          · rw [if_neg hv] at h
            injection h with h1
            subst h1
            push_neg at hv
            exact ⟨hv, rfl⟩
  · intro idx hor hpe hv
    subst hor
    unfold Index.load
    rw [hpe]
    simp only [Bool.true_eq_false, if_false]
    rw [if_pos hv]

theorem C8_witness :
    Index.load true (Except.ok (Except.ok (Index.mk 2 "d" 0 0 []))) =
      Except.error (IndexError.VersionMismatch 1 2) :=
  (C8_load_version_gate true _).2 (Index.mk 2 "d" 0 0 []) rfl rfl (by decide)

/-- Claim C7: for every file of every category whose size exceeds 50 MiB
(`MAX_FILE_SIZE`), extraction fails fast with the explicit size-exceeded
reason, for every file type, OCR setting and (unread) file content. -/
theorem C7_size_limit (size : Nat) (ft : FileType) (ocr : Bool)
    (o : ExtractorOutcomes) (h : MAX_FILE_SIZE < size) :
    extract_text (some size) ft ocr o = extractionFailure (fileTooLargeMsg size) := by
  unfold extract_text
  simp only []
  rw [if_pos h]

theorem C7_witness :
    extract_text (some 52428801) FileType.Pdf false
      (ExtractorOutcomes.mk (extractionSuccess []) (extractionSuccess [])
        (extractionSuccess []) (extractionSuccess [])) =
      extractionFailure (fileTooLargeMsg 52428801) :=
  C7_size_limit 52428801 FileType.Pdf false _ (by decide)

/-- Case analysis of `SearchResult.cmp` into the lexicographic comparison of
`(match count descending, confidence descending)`. -/
lemma cmp_spec (a b : SearchResult) :
    (a.cmp b = Ordering.lt ↔ (b.matches.length < a.matches.length ∨
      (b.matches.length = a.matches.length ∧ b.confidence < a.confidence))) ∧
    (a.cmp b = Ordering.eq ↔ (b.matches.length = a.matches.length ∧
      b.confidence = a.confidence)) ∧
    (a.cmp b = Ordering.gt ↔ (a.matches.length < b.matches.length ∨
      (b.matches.length = a.matches.length ∧ a.confidence < b.confidence))) := by
  unfold SearchResult.cmp cmpNat cmpQ
  rcases lt_trichotomy b.matches.length a.matches.length with h1 | h1 | h1
  · rw [if_pos h1]
    refine ⟨iff_of_true rfl (Or.inl h1), iff_of_false (by simp) ?_,
      iff_of_false (by simp) ?_⟩
    · rintro ⟨he, _⟩
      omega
    · rintro (h2 | ⟨h2, _⟩) <;> omega
  · rw [if_neg (by omega), if_pos h1]
    rcases lt_trichotomy b.confidence a.confidence with h2 | h2 | h2
    · rw [if_pos h2]
      refine ⟨iff_of_true rfl (Or.inr ⟨h1, h2⟩), iff_of_false (by simp) ?_,
        iff_of_false (by simp) ?_⟩
      · rintro ⟨_, he⟩
        linarith
      · rintro (h3 | ⟨_, h3⟩)
        · omega
        · linarith
    · rw [if_neg (by linarith), if_pos h2]
      refine ⟨iff_of_false (by simp) ?_, iff_of_true rfl ⟨h1, h2⟩,
        iff_of_false (by simp) ?_⟩
      · rintro (h3 | ⟨_, h3⟩)
        · omega
        · linarith
      · rintro (h3 | ⟨_, h3⟩)
        · omega
        · linarith
    · rw [if_neg (by linarith), if_neg (by intro he; linarith)]
      refine ⟨iff_of_false (by simp) ?_, iff_of_false (by simp) ?_,
        iff_of_true rfl (Or.inr ⟨h1, h2⟩)⟩
      · rintro (h3 | ⟨_, h3⟩)
        · omega
        · linarith
      · rintro ⟨_, he⟩
        linarith
  · rw [if_neg (by omega), if_neg (by omega)]
    refine ⟨iff_of_false (by simp) ?_, iff_of_false (by simp) ?_,
      iff_of_true rfl (Or.inl h1)⟩
    · rintro (h2 | ⟨h2, _⟩) <;> omega
    · rintro ⟨he, _⟩
      omega

/-- `a.le b` (sorts no later) is the lexicographic "key of `a` at least the
key of `b`" relation. -/
lemma le_iff (a b : SearchResult) :
    a.le b ↔ (b.matches.length < a.matches.length ∨
      (b.matches.length = a.matches.length ∧ b.confidence ≤ a.confidence)) := by
  unfold SearchResult.le
  constructor
  · intro h
    cases htri : a.cmp b with
    | lt =>
      rcases (cmp_spec a b).1.mp htri with h1 | ⟨h1, h2⟩
      · exact Or.inl h1
      · exact Or.inr ⟨h1, le_of_lt h2⟩
    | eq =>
      rcases (cmp_spec a b).2.1.mp htri with ⟨h1, h2⟩
      exact Or.inr ⟨h1, le_of_eq h2⟩
    | gt => exact absurd htri h
  · intro h hgt
    have := (cmp_spec a b).2.2.mp hgt
    rcases h with h1 | ⟨h1, h2⟩ <;> rcases this with h3 | ⟨h3, h4⟩ <;>
      first | omega | linarith

/-- Claim C4: the ordering `impl Ord for SearchResult` induces is a total
pre-order: the sorts-no-later relation is total and transitive; a result with
strictly more matches compares `Less` (sorts strictly earlier, never below);
among equal match counts a result with strictly higher confidence compares
`Less`; and results with equal match count and equal confidence compare as
`Equal` (so the stable sort leaves them in encounter order). -/
theorem C4_ranking_total_preorder :
    (∀ a b : SearchResult, a.le b ∨ b.le a) ∧
    (∀ a b c : SearchResult, a.le b → b.le c → a.le c) ∧
    (∀ a b : SearchResult, b.matches.length < a.matches.length →
      a.cmp b = Ordering.lt) ∧
    (∀ a b : SearchResult, a.matches.length = b.matches.length →
      b.confidence < a.confidence → a.cmp b = Ordering.lt) ∧
    (∀ a b : SearchResult, a.matches.length = b.matches.length →
      a.confidence = b.confidence → a.cmp b = Ordering.eq) := by
  refine ⟨?_, ?_, ?_, ?_, ?_⟩
  · intro a b
    rw [le_iff, le_iff]
    rcases lt_trichotomy b.matches.length a.matches.length with h1 | h1 | h1
    · exact Or.inl (Or.inl h1)
    · rcases le_total b.confidence a.confidence with h2 | h2
      · exact Or.inl (Or.inr ⟨h1, h2⟩)
      · exact Or.inr (Or.inr ⟨h1.symm, h2⟩)
    · exact Or.inr (Or.inl h1)
  · intro a b c h1 h2
    rw [le_iff] at h1 h2 ⊢
    rcases h1 with h1 | ⟨h1a, h1b⟩ <;> rcases h2 with h2 | ⟨h2a, h2b⟩
    · exact Or.inl (by omega)
    · exact Or.inl (by omega)
    · exact Or.inl (by omega)
    · exact Or.inr ⟨by omega, le_trans h2b h1b⟩
  · intro a b hlt
    exact (cmp_spec a b).1.mpr (Or.inl hlt)
  · intro a b hlen hconf
    exact (cmp_spec a b).1.mpr (Or.inr ⟨hlen.symm, hconf⟩)
  · intro a b hlen hconf
    exact (cmp_spec a b).2.1.mpr ⟨hlen.symm, hconf.symm⟩

theorem C4_witness :
    (SearchResult.mk [Match.mk [] [], Match.mk [] []] (1/2)).cmp
        (SearchResult.mk [Match.mk [] []] (9/10)) = Ordering.lt ∧
    (SearchResult.mk [Match.mk [] []] (9/10)).cmp
        (SearchResult.mk [Match.mk [] []] (1/2)) = Ordering.lt ∧
    (SearchResult.mk [Match.mk [] []] (1/2)).cmp
        (SearchResult.mk [Match.mk [] []] (1/2)) = Ordering.eq :=
  ⟨C4_ranking_total_preorder.2.2.1 _ _ (by decide),
   C4_ranking_total_preorder.2.2.2.1 _ _ (by decide) (by norm_num),
   C4_ranking_total_preorder.2.2.2.2 _ _ (by decide) (by norm_num)⟩

/-- Claim C5: for `matchCount ≥ 1` the computed confidence equals the
specification's formula `clamp(0.7*matchScore + 0.3*density, 0, 1)` with
`matchScore = min(ln(matchCount) + 1, 5)/5` and `density` the capped
per-KiB match density (0.5 for an empty file), and it always lies in
`[0, 1]`. -/
theorem C5_confidence_formula (matchCount fileSize : Nat) (h : 1 ≤ matchCount) :
    calculate_confidence matchCount fileSize = specConfidence matchCount fileSize ∧
    0 ≤ calculate_confidence matchCount fileSize ∧
    calculate_confidence matchCount fileSize ≤ 1 := by
  have h0 : matchCount ≠ 0 := by omega
  refine ⟨?_, ?_, ?_⟩
  · unfold calculate_confidence specConfidence
    rw [if_neg h0]
    simp only []
    have hiff : ((fileSize : ℝ) / 1024 > 0) ↔ (fileSize > 0) := by
      rw [gt_iff_lt, div_pos_iff]
      constructor
      · rintro (⟨h1, _⟩ | ⟨_, h2⟩)
        · exact_mod_cast h1
        · norm_num at h2
      · intro h1
        refine Or.inl ⟨by exact_mod_cast h1, by norm_num⟩
    by_cases hfs : fileSize > 0
    · rw [if_pos (hiff.mpr hfs), if_pos hfs]
      ring_nf
    · rw [if_neg (fun hh => hfs (hiff.mp hh)), if_neg hfs]
      ring_nf
  · unfold calculate_confidence
    rw [if_neg h0]
    exact le_min (le_max_right _ _) zero_le_one
  · unfold calculate_confidence
    rw [if_neg h0]
    exact min_le_right _ _

theorem C5_witness :
    calculate_confidence 3 2048 = specConfidence 3 2048 ∧
    0 ≤ calculate_confidence 3 2048 ∧ calculate_confidence 3 2048 ≤ 1 :=
  C5_confidence_formula 3 2048 (by decide)

/-- Claim C2 counterexample: the claim quantifies over every line and every
non-empty literal pattern and asserts the search resumes one *character* past
each match start and reports overlapping occurrences.  On the line and
pattern consisting of U+00E9 (a two-byte character), two overlapping
occurrences exist (byte positions 0 and 2), but the code resumes one *byte*
past the match start, which lands inside a character, and the next slicing
of the search line panics (modelled by `none`): no occurrence is reported at
all. -/
theorem C2_counterexample :
    find_literal_matches true [Char.ofNat 233, Char.ofNat 233] [Char.ofNat 233] = none ∧
    (litOccurrences (strBytes [Char.ofNat 233, Char.ofNat 233])
      (strBytes [Char.ofNat 233])).length = 2 := by
  constructor
  · show findLitLines true [Char.ofNat 233]
      (splitLines [Char.ofNat 233, Char.ofNat 233]) = _
    rw [splitLines_nil_case [Char.ofNat 233, Char.ofNat 233] (by decide)]
    decide
  · decide

/-- Claim C2 (amended): literal matching advances the cursor one *byte* past
each match's start position (not past its end).  On all-ASCII input one byte
is one character, the scan never panics, and it reports exactly one match
per occurrence position, overlapping occurrences included; in particular,
searching `"aa"` in `"aaa"` yields exactly 2 matches, at byte positions 0
and 1. -/
theorem C2_overlapping_matches :
    (∀ (cs : Bool) (line pat : List Char), allAscii line → allAscii pat →
      pat ≠ [] →
      find_literal_line cs line pat =
        some ((litOccurrences (searchBytesOf cs line) (patBytesOf cs pat)).map
          (matchAt (strBytes line) (byteLen pat)))) ∧
    find_literal_matches true ['a', 'a', 'a'] ['a', 'a'] =
      some [Match.mk [97, 97] [97, 97, 97], Match.mk [97, 97] [97, 97, 97]] ∧
    litOccurrences (strBytes ['a', 'a', 'a']) (strBytes ['a', 'a']) = [0, 1] := by
  refine ⟨?_, ?_, by decide⟩
  · intro cs line pat hl hpa hp
    exact find_literal_line_ascii cs line pat hl hpa hp
  · show findLitLines true ['a', 'a'] (splitLines ['a', 'a', 'a']) = _
    rw [splitLines_nil_case ['a', 'a', 'a'] (by decide)]
    decide

theorem C2_witness :
    find_literal_line false ['a', 'B'] ['b'] =
      some ((litOccurrences (searchBytesOf false ['a', 'B'])
        (patBytesOf false ['b'])).map
          (matchAt (strBytes ['a', 'B']) (byteLen ['b']))) :=
  C2_overlapping_matches.1 false ['a', 'B'] ['b'] (by decide) (by decide) (by decide)

/-- Claim C6 counterexample: the pattern `"a\nb"` is present in (equal to)
the extracted text `"a\nb"`, yet the search yields zero matches, because
matching is strictly per line and a pattern containing a line break can
never occur within a line. -/
theorem C6_counterexample :
    (['a', '\n', 'b'] : List Char) <:+: ['a', '\n', 'b'] ∧
    find_literal_matches true ['a', '\n', 'b'] ['a', '\n', 'b'] = some [] := by
  refine ⟨List.infix_refl _, ?_⟩
  show findLitLines true ['a', '\n', 'b'] (splitLines ['a', '\n', 'b']) = _
  rw [splitLines_cons_case ['a', '\n', 'b'] '\n' ['b'] (by decide),
    splitLines_nil_case ['b'] (by decide)]
  decide

/-- Claim C6 (amended): for all-ASCII extracted text and a non-empty
all-ASCII literal pattern containing no line-break characters (`'\n'`,
`'\r'`), if the pattern occurs in the extracted text, then literal search
(either case mode) completes and yields at least one match. -/
theorem C6_pattern_found (cs : Bool) (text pat : List Char) (hp : pat ≠ [])
    (hta : allAscii text) (hpa : allAscii pat) (hn : ('\n' : Char) ∉ pat)
    (hr : ('\x0d' : Char) ∉ pat) (hin : pat <:+: text) :
    ∃ ms, find_literal_matches cs text pat = some ms ∧ ms ≠ [] := by
  rcases splitLines_infix pat hn hr hp text hin with ⟨l0, hl0mem, hl0in⟩
  have hallLines : ∀ l ∈ splitLines text, allAscii l := fun l hl c hc =>
    hta c ((splitLines_sublist text l hl).subset hc)
  rcases findLitLines_ascii cs pat hpa hp (splitLines text) hallLines with
    ⟨ms, hms, hlen⟩
  refine ⟨ms, hms, ?_⟩
  have hocc : patBytesOf cs pat <:+: searchBytesOf cs l0 :=
    searchBytesOf_isInfix cs pat l0 hl0in
  have hne := litOccurrences_ne_nil (searchBytesOf cs l0) (patBytesOf cs pat)
    (patBytesOf_ne_nil cs pat hpa hp) hocc
  have hpos : 0 < (litOccurrences (searchBytesOf cs l0) (patBytesOf cs pat)).length :=
    List.length_pos.mpr hne
  have hmemmap : (litOccurrences (searchBytesOf cs l0) (patBytesOf cs pat)).length ∈
      (splitLines text).map (fun l =>
        (litOccurrences (searchBytesOf cs l) (patBytesOf cs pat)).length) :=
    List.mem_map_of_mem _ hl0mem
  have hsum := List.single_le_sum (fun x _ => Nat.zero_le x) _ hmemmap
  intro hnil
  rw [hnil] at hlen
  simp only [List.length_nil] at hlen
  omega

theorem C6_witness :
    ∃ ms, find_literal_matches false ['x', 'a', 'y'] ['a'] = some ms ∧ ms ≠ [] :=
  C6_pattern_found false ['x', 'a', 'y'] ['a'] (by decide) (by decide) (by decide)
    (by decide) (by decide) ⟨['x'], ['y'], rfl⟩

/-- Claim C9 counterexample: the claim asserts every produced `Match` carries
an optional line number and an optional 0-indexed column, populated when the
extraction mode preserves line numbering (as plain-text search does).  But
the source's `Match` struct has only `matched_text` and `context`: the two
matches of `"aa"` in `"aaa"`, which occur at distinct columns 0 and 1, are
produced as literally identical values, so no column (nor line number) is
recorded. -/
theorem C9_counterexample :
    find_literal_matches true ['a', 'a', 'a'] ['a', 'a'] =
      some [Match.mk [97, 97] [97, 97, 97], Match.mk [97, 97] [97, 97, 97]] ∧
    litOccurrences (strBytes ['a', 'a', 'a']) (strBytes ['a', 'a']) = [0, 1] ∧
    Match.mk ([97, 97] : List Nat) ([97, 97, 97] : List Nat) =
      Match.mk [97, 97] [97, 97, 97] := by
  refine ⟨?_, by decide, rfl⟩
  show findLitLines true ['a', 'a'] (splitLines ['a', 'a', 'a']) = _
  rw [splitLines_nil_case ['a', 'a', 'a'] (by decide)]
  decide

/-- Claim C9 (amended): every produced `Match` carries exactly the matched
text and its source-line context — each match's `context` is the full
original line it was found in; no line-number or column field exists. -/
theorem C9_match_fields (cs : Bool) (text pat : List Char) (ms : List Match)
    (h : find_literal_matches cs text pat = some ms) :
    ∀ m ∈ ms, ∃ l ∈ splitLines text, m.context = strBytes l := by
  intro m hm
  exact findLitLines_context cs pat (splitLines text) ms h m hm

theorem C9_witness :
    ∃ l ∈ splitLines ['a', 'b'],
      (Match.mk ([97] : List Nat) ([97, 98] : List Nat)).context = strBytes l :=
  C9_match_fields true ['a', 'b'] ['a'] [Match.mk [97] [97, 98]]
    (by
      show findLitLines true ['a'] (splitLines ['a', 'b']) = _
      rw [splitLines_nil_case ['a', 'b'] (by decide)]
      decide)
    (Match.mk [97] [97, 98]) (List.mem_singleton.mpr rfl)

/-- Claim C10: the offsets computed in the lowercased copy of a line are used
to slice the original line, but lowercasing can change a character's UTF-8
byte length.  For the line `"ẞx"` (U+1E9E is 3 bytes, its lowercase `ß` is
2 bytes) and pattern `"ß"`, the case-insensitive search finds byte offset 0
in the lowercased line and slices the original line at
`[0 .. 0 + pattern.len()) = [0..2)`, but byte 2 is not a character boundary
of the original line — the slice panics (modelled by `none`), refuting the
claimed in-bounds/boundary safety. -/
theorem C10_lowercase_offset_panic :
    findSub (searchBytesOf false [Char.ofNat 7838, 'x'])
      (patBytesOf false [Char.ofNat 223]) = some 0 ∧
    byteLen [Char.ofNat 223] = 2 ∧
    isCharBoundary (strBytes [Char.ofNat 7838, 'x'])
      (0 + byteLen [Char.ofNat 223]) = false ∧
    find_literal_matches false [Char.ofNat 7838, 'x'] [Char.ofNat 223] = none := by
  refine ⟨by decide, by decide, by decide, ?_⟩
  show findLitLines false [Char.ofNat 223] (splitLines [Char.ofNat 7838, 'x']) = _
  rw [splitLines_nil_case [Char.ofNat 7838, 'x'] (by decide)]
  decide

/-- Claim C3 counterexample: the claim says the OCR fallback is invoked if
and only if the cleaned text-layer output is *shorter than* 100 characters.
For a cleaned text layer of exactly 100 (ASCII) characters the code still
invokes the fallback, because the source's substantial-text test is
`cleaned.len() > 100`: the fallback runs at lengths `≤ 100`, not `< 100`. -/
theorem C3_counterexample :
    pdfOcrFallbackInvoked (some (List.replicate 100 'a')) true = true ∧
    ¬(byteLen (cleanedOf (some (List.replicate 100 'a'))) < 100) := by
  have hsl : splitLines (List.replicate 100 'a') = [List.replicate 100 'a'] := by
    rw [splitLines_nil_case (List.replicate 100 'a') (by decide)]
    decide
  unfold pdfOcrFallbackInvoked cleanedOf cleanPdfText
  dsimp only
  rw [hsl]
  decide

/-- Claim C3 (amended): with OCR enabled, `extract_pdf` invokes the PDF
image-recovery OCR fallback iff the cleaned text-layer output is *at most*
100 bytes long; when the fallback runs, a non-empty OCR result is
concatenated (with a line break) after any sparse cleaned text (or returned
alone when the text layer was empty), extraction fails with a descriptive
reason exactly when OCR yields nothing and the cleaned text layer is empty,
and otherwise the non-empty cleaned text is returned. -/
theorem C3_pdf_ocr_fallback :
    (∀ (tr : Option (List Char)) (ocr : Bool),
      pdfOcrFallbackInvoked tr ocr = true ↔
        (ocr = true ∧ byteLen (cleanedOf tr) ≤ 100)) ∧
    (∀ (tr : Option (List Char)) (ocrResult : ExtractionResult),
      pdfOcrFallbackInvoked tr true = true →
      ((ocrResult.success = true ∧ ¬ocrResult.text.isEmpty = true →
        extract_pdf tr true ocrResult =
          (if (cleanedOf tr).isEmpty then ocrResult
           else extractionSuccess (cleanedOf tr ++ '\n' :: ocrResult.text))) ∧
       (¬(ocrResult.success = true ∧ ¬ocrResult.text.isEmpty = true) →
         ((cleanedOf tr).isEmpty = true →
           extract_pdf tr true ocrResult =
             extractionFailure
               "PDF appears to be scanned but OCR could not extract text") ∧
         (¬(cleanedOf tr).isEmpty = true →
           extract_pdf tr true ocrResult = extractionSuccess (cleanedOf tr))))) := by
  constructor
  · intro tr ocr
    unfold pdfOcrFallbackInvoked
    cases ocr
    · simp
    · simp
  · intro tr ocrResult hinv
    have hle : ¬(byteLen (cleanedOf tr) > 100) := by
      unfold pdfOcrFallbackInvoked at hinv
      simp at hinv
      omega
    have hcond : ¬(byteLen (cleanedOf tr) > 100 ∨ (true : Bool) = false) := by
      rintro (hh | hh)
      · exact hle hh
      · simp at hh
    constructor
    · intro hocr
      simp only [extract_pdf]
      rw [if_neg hcond, if_pos hocr]
    · intro hnocr
      constructor
      · intro hemp
        simp only [extract_pdf]
        rw [if_neg hcond, if_neg hnocr, if_neg (by simp [hemp])]
      · intro hne
        simp only [extract_pdf]
        rw [if_neg hcond, if_neg hnocr, if_pos hne]

theorem C3_witness :
    pdfOcrFallbackInvoked (some ['x']) true = true ∧
    extract_pdf (some ['x']) true (extractionSuccess ['y']) =
      (if (cleanedOf (some ['x'])).isEmpty then extractionSuccess ['y']
       else extractionSuccess (cleanedOf (some ['x']) ++ '\n' :: ['y'])) := by
  have hinv : pdfOcrFallbackInvoked (some ['x']) true = true := by
    have hsl : splitLines ['x'] = [['x']] := by
      rw [splitLines_nil_case ['x'] (by decide)]
      decide
    unfold pdfOcrFallbackInvoked cleanedOf cleanPdfText
    dsimp only
    rw [hsl]
    decide
  exact ⟨hinv, (C3_pdf_ocr_fallback.2 (some ['x']) (extractionSuccess ['y']) hinv).1
    (by constructor <;> decide)⟩
